import Mathlib

/-!
PlateSolver: a step model of the solve orchestrator.

Shallow embedding of `IPlateSolver.h`, `PlateSolver.h` and `PlateSolver.cpp`.

* C++ `double` values are carried as rationals; no rounding is modelled and no
  property below depends on arithmetic.
* `StellarSolver` and `fileio` are external libraries.  Their state is kept only
  as far as the orchestrator drives it, and their answers (`loadImage`,
  `failed`, `solvingDone`, `pixelToWCS`, `getSolution`) are supplied with the
  action that asks for them.
* Shared pointers are modelled by value (`Job`) or by an index into a heap
  (`CancelFlag` objects).
* Every public call (`solveAsync`, `cancel`, `setPrevInfo`) up to the point
  where it returns or blocks is one step; the detached background thread, the
  engine's execution context and the completion notification take steps of
  their own.
-/

namespace SW

/-- C++ `double`, carried as a rational. -/
abbrev Double := Rat

/-- `degToRad` of `PlateSolver.cpp`. -/
def degToRad (deg : Double) : Double :=
  deg / 180 * (3.14159265358979323846264338327950288 : Rat)

/-! ## IPlateSolver.h -/

/-- `IPlateSolver::AstroCoord`: angles in radian. -/
structure AstroCoord where
  ra : Double
  dec : Double
deriving DecidableEq

/-- `IPlateSolver::Result`. -/
structure Result where
  fieldWidth : Option Double := none
  fieldHeight : Option Double := none
  rdJ2000 : Option AstroCoord := none
  pixelScale : Option Double := none
  rotation : Option Double := none
  isCancelled : Bool := false
deriving DecidableEq

/-- `IPlateSolver::Result::isValid`. -/
def Result.isValid (r : Result) : Bool :=
  r.fieldWidth.isSome && r.fieldHeight.isSome && r.rdJ2000.isSome && r.pixelScale.isSome &&
    r.rotation.isSome && !r.isCancelled

/-- `IPlateSolver::ImagePos`: position {x, y} in image coordinates. -/
abbrev ImagePos := Double × Double

/-! ## PlateSolver.h -/

/-- `PlateSolver::SolverScale`, unit ARCSEC_PER_PIX. -/
structure SolverScale where
  min : Double
  max : Double
deriving DecidableEq

/-- `PlateSolver::CancelFlag::isCancelled` on the flag object at address `c`. -/
def CancelFlag.isCancelled (flags : List Bool) (c : Nat) : Bool :=
  flags.getD c false

/-- `PlateSolver::CancelFlag::cancel` on the flag object at address `c`. -/
def CancelFlag.cancel (flags : List Bool) (c : Nat) : List Bool :=
  flags.set c true

/-! ## The external engine -/

/-- `FITSImage::Solution`, the fields the orchestrator reads. -/
structure Solution where
  fieldWidth : Double
  fieldHeight : Double
  pixscale : Double
  orientation : Double
deriving DecidableEq

/-- `FITSImage::wcs_point`, in degrees. -/
structure WcsPoint where
  ra : Double
  dec : Double
deriving DecidableEq

/-- Modelled from the spec: what the engine answers when the ready handler asks it
(`failed() -> bool`, `solvingDone() -> bool`, `pixelToSky(point) -> coord?`,
`getSolution()`); `StellarSolver` itself is an external library. -/
structure Answers where
  failed : Bool
  solvingDone : Bool
  pixelToWCS : ImagePos → Option WcsPoint
  getSolution : Solution

/-! ## PlateSolver.cpp -/

/-- `Job::handler`: the handler given to the `call`-th `solveAsync`; in blocking mode
it is wrapped so that it also fulfils `p_handlerCalled` (`fulfils`). -/
structure Handler where
  call : Nat
  fulfils : Bool
deriving DecidableEq

/-- `Job` of `PlateSolver.cpp`.  `stellarSolver` and `imageLoader` point to the one engine of
the state, `cancellable` is the address of the job's `CancelFlag`; `startTime` only feeds
a disabled log line and is left out. -/
structure Job where
  filePath : String
  cancellable : Nat
  solverScale : Option SolverScale
  hintRADec : Option AstroCoord
  solvePoint : ImagePos
  handler : Handler
deriving DecidableEq

/-- Modelled from the spec: the engine (`StellarSolver` with its `fileio` loader) as the
orchestrator drives it.  `starts` counts the `start()` calls whose one-shot completion
notification is still due (the engine "fires once per `start()`"), `isRunning()` holds
while one is due; `observers` are the single-shot connections to `ready`; `aborts`
counts the abort requests received. -/
structure Engine where
  image : Option String := none
  useScale : Bool := false
  searchScale : Option SolverScale := none
  starts : Nat := 0
  observers : List Job := []
  aborts : Nat := 0
deriving DecidableEq

/-- Modelled from the spec: `isRunning() -> bool` of the engine, true from `start()` until
the completion notification of that start. -/
def Engine.isRunning (e : Engine) : Bool :=
  e.starts != 0

/-- Where the detached background thread of `solveAsync` stands. -/
inductive Pc where
  | check
  | waiting
  | recheck
  | invoke
deriving DecidableEq

/-- The detached thread `t` of `solveAsync`, holding its job. -/
structure Thread where
  job : Job
  pc : Pc
deriving DecidableEq

/-- The orchestrator with everything it shares: `qapp` tells whether
`QCoreApplication::instance()` is non-null, `canceller` and `prevInfo` are the members
`_canceller` and `_prevInfo`, `flags` the `CancelFlag` objects made so far, `posted` the
calls queued by `QMetaObject::invokeMethod` on the engine's context, `ncalls` the number of
`solveAsync` calls made, `blocked` the calls waiting on `f_handlerCalled`, `promises` the
fulfilled `p_handlerCalled`, `returned` the calls that returned and `calls` the handler
invocations made so far, in order. -/
structure State where
  qapp : Bool
  canceller : Option Nat := none
  prevInfo : Option SolverScale := none
  flags : List Bool := []
  engine : Engine := {}
  threads : List Thread := []
  posted : List Job := []
  ncalls : Nat := 0
  blocked : List Nat := []
  promises : List Nat := []
  returned : List Nat := []
  calls : List (Nat × Result) := []
deriving DecidableEq

/-- `isBlocking` of `PlateSolver.cpp`. -/
def isBlocking (s : State) : Bool :=
  !s.qapp

/-- `PlateSolver::PlateSolver`: the constructor writes the default `UseScale = false`; the
solver parameters and index paths it also sets are never read by the orchestrator and are
left out. -/
def PlateSolver (qapp : Bool) : State :=
  { qapp := qapp, engine := { useScale := false } }

/-- The call `job->handler(result)`. -/
def invokeHandler (s : State) (h : Handler) (result : Result) : State :=
  { s with
    calls := s.calls ++ [(h.call, result)]
    promises := if h.fulfils then s.promises ++ [h.call] else s.promises }

/-- The lambda connected to `StellarSolver::ready` in `runJob_onStellerSolverThread`. -/
def readyHandler (s : State) (a : Answers) (job : Job) : State :=
  if CancelFlag.isCancelled s.flags job.cancellable then
    invokeHandler s job.handler { isCancelled := true }
  else
    let solved := !a.failed && a.solvingDone
    if !solved then
      invokeHandler s job.handler {}
    else
      match a.pixelToWCS job.solvePoint with
      | none => invokeHandler s job.handler {}
      | some wcsCoord =>
        let solution := a.getSolution
        invokeHandler s job.handler
          { fieldWidth := some solution.fieldWidth
            fieldHeight := some solution.fieldHeight
            rdJ2000 := some { ra := degToRad wcsCoord.ra, dec := degToRad wcsCoord.dec }
            pixelScale := some solution.pixscale
            rotation := some solution.orientation }

/-- `runJob_onStellerSolverThread`; `loadOk` is the answer of `loadImage`. -/
def runJob_onStellerSolverThread (s : State) (job : Job) (loadOk : Bool) : State :=
  if !loadOk then
    invokeHandler s job.handler {}
  else
    let e := { s.engine with image := some job.filePath }
    let e := match job.solverScale with
      | some scale => { e with useScale := true, searchScale := some scale }
      | none => e
    let e := { e with observers := e.observers ++ [job] }
    { s with engine := { e with starts := e.starts + 1 } }

/-- `PlateSolver::cancel`. -/
def cancel (s : State) : State :=
  if s.engine.isRunning then
    let s := match s.canceller with
      | some c => { s with flags := CancelFlag.cancel s.flags c, canceller := none }
      | none => s
    { s with engine := { s.engine with aborts := s.engine.aborts + 1 } }
  else
    s

/-- `PlateSolver::setPrevInfo`. -/
def setPrevInfo (s : State) (value : Option SolverScale) : State :=
  { s with prevInfo := value }

/-- `PlateSolver::solveAsync` up to the point where the caller returns (asynchronous mode) or
waits on `f_handlerCalled` (blocking mode); `loadOk` is the answer of `loadImage` when the
job is run on the calling thread. -/
def solveAsync (s : State) (filePath : String) (hintRADec : Option AstroCoord)
    (usePrevInfo : Bool) (solvePoint : ImagePos) (loadOk : Bool) : State :=
  let s := cancel s
  let cancellable := s.flags.length
  let s := { s with flags := s.flags ++ [false], canceller := some cancellable }
  let job : Job :=
    { filePath := filePath
      cancellable := cancellable
      solverScale := if usePrevInfo then s.prevInfo else none
      hintRADec := hintRADec
      solvePoint := solvePoint
      handler := { call := s.ncalls, fulfils := isBlocking s } }
  let s := { s with ncalls := s.ncalls + 1 }
  if isBlocking s then
    let s := runJob_onStellerSolverThread s job loadOk
    { s with blocked := s.blocked ++ [job.handler.call] }
  else
    { s with
      threads := s.threads ++ [{ job := job, pc := Pc.check }]
      returned := s.returned ++ [job.handler.call] }

/-- The thread of call `c`, if it is still alive. -/
def findThread (s : State) (c : Nat) : Option Thread :=
  s.threads.find? (fun t => t.job.handler.call == c)

/-- Move the thread of call `c` to `pc`. -/
def setPc (s : State) (c : Nat) (pc : Pc) : State :=
  { s with threads := s.threads.map (fun t => if t.job.handler.call = c then { t with pc := pc } else t) }

/-- The thread of call `c` ends. -/
def endThread (s : State) (c : Nat) : State :=
  { s with threads := s.threads.filter (fun t => t.job.handler.call != c) }

/-- One step of the detached thread `t` of `solveAsync`: the `isRunning()` test (with the
abort request of `abortAndWait` when it holds), the return of `abortAndWait` once the
engine has stopped, the test of the job's own flag, and `QMetaObject::invokeMethod`. -/
def background (s : State) (t : Thread) : Option State :=
  let c := t.job.handler.call
  match t.pc with
  | Pc.check =>
    if s.engine.isRunning then
      some (setPc { s with engine := { s.engine with aborts := s.engine.aborts + 1 } } c Pc.waiting)
    else
      some (setPc s c Pc.invoke)
  | Pc.waiting =>
    if s.engine.isRunning then none else some (setPc s c Pc.recheck)
  | Pc.recheck =>
    if CancelFlag.isCancelled s.flags t.job.cancellable then
      some (invokeHandler (endThread s c) t.job.handler { isCancelled := true })
    else
      some (setPc s c Pc.invoke)
  | Pc.invoke =>
    let s := endThread s c
    some { s with posted := s.posted ++ [t.job] }

/-- The engine's context runs the oldest posted call of `runJob_onStellerSolverThread`. -/
def runPosted (s : State) (loadOk : Bool) : Option State :=
  match s.posted with
  | [] => none
  | job :: rest => some (runJob_onStellerSolverThread { s with posted := rest } job loadOk)

/-- Modelled from the spec: the engine's "one-shot completion notification (fires once per
`start()`)": one due notification is consumed and every observer connected to `ready` is
disconnected and run, in connection order. -/
def ready (s : State) (a : Answers) : Option State :=
  if s.engine.starts = 0 then none
  else
    let observers := s.engine.observers
    let s := { s with engine := { s.engine with starts := s.engine.starts - 1, observers := [] } }
    some (observers.foldl (fun st job => readyHandler st a job) s)

/-- A blocking `solveAsync` returns from `f_handlerCalled.wait()`. -/
def solveReturn (s : State) (c : Nat) : Option State :=
  if c ∈ s.blocked ∧ c ∈ s.promises then
    some { s with blocked := s.blocked.erase c, returned := s.returned ++ [c] }
  else none

/-- What can happen next: a public call, a step of a background thread, of the engine's
context or of the engine, or the return of a blocked call. -/
inductive Action where
  | solveAsync (filePath : String) (hintRADec : Option AstroCoord) (usePrevInfo : Bool)
      (solvePoint : ImagePos) (loadOk : Bool)
  | cancel
  | setPrevInfo (value : Option SolverScale)
  | background (c : Nat)
  | runPosted (loadOk : Bool)
  | ready (a : Answers)
  | solveReturn (c : Nat)

/-- Steps that are not made by the caller. -/
def Action.internal : Action → Bool
  | Action.background _ => true
  | Action.runPosted _ => true
  | Action.ready _ => true
  | Action.solveReturn _ => true
  | _ => false

/-- One step of the system; `none` when the action is not enabled. -/
def step (s : State) : Action → Option State
  | Action.solveAsync filePath hintRADec usePrevInfo solvePoint loadOk =>
    some (solveAsync s filePath hintRADec usePrevInfo solvePoint loadOk)
  | Action.cancel => some (cancel s)
  | Action.setPrevInfo value => some (setPrevInfo s value)
  | Action.background c =>
    match findThread s c with
    | some t => background s t
    | none => none
  | Action.runPosted loadOk => runPosted s loadOk
  | Action.ready a => ready s a
  | Action.solveReturn c => solveReturn s c

/-- Run a sequence of actions. -/
def run (s : State) : List Action → Option State
  | [] => some s
  | a :: as => (step s a).bind (fun s1 => run s1 as)

/-- States reachable from a freshly constructed orchestrator. -/
inductive Reachable : State → Prop
  | init (qapp : Bool) : Reachable (PlateSolver qapp)
  | step {s s1 : State} (a : Action) : Reachable s → step s a = some s1 → Reachable s1

/-- How often the handler of call `c` has been invoked. -/
def callCount (s : State) (c : Nat) : Nat :=
  (s.calls.map Prod.fst).count c

/-- The calls whose job is still on its way: held by a background thread, posted to the
engine's context, or connected to `ready`. -/
def pendingCalls (s : State) : List Nat :=
  s.threads.map (fun t => t.job.handler.call) ++ s.posted.map (fun job => job.handler.call) ++
    s.engine.observers.map (fun job => job.handler.call)

/-- Steps a background thread at `pc` still has before its job is handled, at most. -/
def Pc.weight : Pc → Nat
  | Pc.check => 6
  | Pc.waiting => 5
  | Pc.recheck => 4
  | Pc.invoke => 3

/-- A bound on the internal steps still to come. -/
def workLeft (s : State) : Nat :=
  (s.threads.map (fun t => t.pc.weight)).sum + 2 * s.posted.length + s.engine.starts +
    s.blocked.length

/-- No background thread, engine event or blocked call can take a step. -/
def Quiescent (s : State) : Prop :=
  ∀ a : Action, a.internal = true → step s a = none

/-- The Result the ready handler passes to the job's handler, as a function of the flags and
the answers (the branches of `readyHandler`, see `readyHandler_eq`). -/
def readyResult (flags : List Bool) (a : Answers) (job : Job) : Result :=
  if CancelFlag.isCancelled flags job.cancellable then { isCancelled := true }
  else if !(!a.failed && a.solvingDone) then {}
  else
    match a.pixelToWCS job.solvePoint with
    | none => {}
    | some wcsCoord =>
      { fieldWidth := some a.getSolution.fieldWidth
        fieldHeight := some a.getSolution.fieldHeight
        rdJ2000 := some { ra := degToRad wcsCoord.ra, dec := degToRad wcsCoord.dec }
        pixelScale := some a.getSolution.pixscale
        rotation := some a.getSolution.orientation }

/-- Every admitted call is pending or handled, once in all, and observers wait only while a
completion notification is due. -/
def Inv (s : State) : Prop :=
  (∀ c, (pendingCalls s).count c + callCount s c = if c < s.ncalls then 1 else 0) ∧
    (s.engine.observers ≠ [] → s.engine.starts ≠ 0)

/-- A blocking call that solved its image and returned. -/
def solvedBlocking : State :=
  { qapp := false
    canceller := some 0
    flags := [false]
    engine := { image := some "m31.fits", starts := 0, observers := [] }
    ncalls := 1
    promises := [0]
    returned := [0]
    calls := [(0,
      { fieldWidth := some 2
        fieldHeight := some 1
        rdJ2000 := some { ra := degToRad 150, dec := degToRad 20 }
        pixelScale := some 3
        rotation := some 30 })] }

/-- Whether a public call asks to reuse the stored scale hint. -/
def Action.reusesHint : Action → Bool
  | Action.solveAsync _ _ usePrevInfo _ _ => usePrevInfo
  | _ => false

/-- Answers of a successful solve. -/
def solved : Answers :=
  { failed := false
    solvingDone := true
    pixelToWCS := fun _ => some { ra := 150, dec := 20 }
    getSolution := { fieldWidth := 2, fieldHeight := 1, pixscale := 3, orientation := 30 } }

/-- The job of the first call in the examples. -/
def firstJob : Job :=
  { filePath := "m31.fits"
    cancellable := 0
    solverScale := none
    hintRADec := none
    solvePoint := (0, 0)
    handler := { call := 0, fulfils := false } }

/-- The job of the second call in the examples. -/
def secondJob : Job :=
  { filePath := "m33.fits"
    cancellable := 1
    solverScale := none
    hintRADec := none
    solvePoint := (0, 0)
    handler := { call := 1, fulfils := false } }

/-- The calls that bring a fresh orchestrator to `runningFirst`. -/
def startFirst : List Action :=
  [Action.solveAsync "m31.fits" none false (0, 0) true, Action.background 0,
    Action.background 0, Action.runPosted true]

/-- A `solveAsync` request of the caller. -/
def Action.isRequest : Action → Bool
  | Action.solveAsync _ _ _ _ _ => true
  | _ => false

/-- The number of `solveAsync` requests made in a run; the requests are numbered from 0 in
the order they are made. -/
def requests (tr : List Action) : Nat :=
  tr.countP Action.isRequest

/-- One asynchronous request, taken through the background thread and the engine to its
completion notification. -/
def solveFirst : List Action :=
  [Action.solveAsync "m31.fits" none false (0, 0) true, Action.background 0,
    Action.background 0, Action.runPosted true, Action.ready solved]

/-- The state after `solveFirst`: the request solved and its handler invoked. -/
def solvedFirst : State :=
  { qapp := true
    canceller := some 0
    flags := [false]
    engine := { image := some "m31.fits", starts := 0, observers := [] }
    ncalls := 1
    returned := [0]
    calls := [(0,
      { fieldWidth := some 2
        fieldHeight := some 1
        rdJ2000 := some { ra := degToRad 150, dec := degToRad 20 }
        pixelScale := some 3
        rotation := some 30 })] }

/-! ## Properties -/

theorem readyHandler_eq (s : State) (a : Answers) (job : Job) :
    readyHandler s a job = invokeHandler s job.handler (readyResult s.flags a job) := by
  unfold readyHandler readyResult
  by_cases h1 : CancelFlag.isCancelled s.flags job.cancellable = true
  · simp [h1]
  · by_cases h2 : (!(!a.failed && a.solvingDone)) = true
    · simp only [h1, h2, if_true, if_false]
      simp
    · simp only [h1, h2, if_false]
      cases h3 : a.pixelToWCS job.solvePoint <;> simp

theorem foldl_readyHandler (a : Answers) (observers : List Job) (s : State) :
    observers.foldl (fun st job => readyHandler st a job) s =
      { s with
        calls := s.calls ++ observers.map (fun job => (job.handler.call, readyResult s.flags a job))
        promises := s.promises ++
          (observers.filter (fun job => job.handler.fulfils)).map (fun job => job.handler.call) } := by
  induction observers generalizing s with
  | nil => simp
  | cons job rest ih =>
    rw [List.foldl_cons, ih, readyHandler_eq]
    cases hf : job.handler.fulfils <;> simp [invokeHandler, hf, List.filter_cons]

/-- C3. `isValid()` is true exactly when the five optional fields are all present and
`isCancelled` is false. -/
theorem isValid_iff (r : Result) :
    r.isValid = true ↔
      (r.fieldWidth ≠ none ∧ r.fieldHeight ≠ none ∧ r.rdJ2000 ≠ none ∧ r.pixelScale ≠ none ∧
        r.rotation ≠ none) ∧ r.isCancelled = false := by
  simp [Result.isValid, Option.isSome_iff_ne_none, and_assoc]

theorem map_call_setPc (l : List Thread) (c : Nat) (pc : Pc) :
    (l.map (fun t => if t.job.handler.call = c then { t with pc := pc } else t)).map
        (fun t => t.job.handler.call) = l.map (fun t => t.job.handler.call) := by
  rw [List.map_map]
  apply List.map_congr_left
  intro t _
  by_cases h : t.job.handler.call = c <;> simp [h]

theorem count_endThread (l : List Thread) (c k : Nat) :
    ((l.filter (fun t => t.job.handler.call != c)).map (fun t => t.job.handler.call)).count k =
      if k = c then 0 else (l.map (fun t => t.job.handler.call)).count k := by
  induction l with
  | nil => simp
  | cons t rest ih =>
    by_cases hk : k = c
    · subst hk
      simp only [if_true] at ih ⊢
      by_cases h : t.job.handler.call = k
      · simp [List.filter_cons, h, ih]
      · simp [List.filter_cons, h, ih, List.count_cons]
    · simp only [hk, if_false] at ih ⊢
      by_cases h : t.job.handler.call = c
      · have : t.job.handler.call ≠ k := fun e => hk (e ▸ h)
        simp [List.filter_cons, h, ih, List.count_cons, this]
        intro e; exact absurd e.symm hk
      · simp [List.filter_cons, h, ih, List.count_cons]

theorem findThread_some {s : State} {c : Nat} {t : Thread} (h : findThread s c = some t) :
    t ∈ s.threads ∧ t.job.handler.call = c := by
  unfold findThread at h
  refine ⟨List.mem_of_find?_eq_some h, ?_⟩
  have := List.find?_some h
  simpa using this

theorem count_pendingCalls (s : State) (c : Nat) :
    (pendingCalls s).count c =
      (s.threads.map (fun t => t.job.handler.call)).count c +
        (s.posted.map (fun job => job.handler.call)).count c +
        (s.engine.observers.map (fun job => job.handler.call)).count c := by
  simp [pendingCalls, List.count_append, Nat.add_assoc]

theorem inv_runJob (s : State) (job : Job) (loadOk : Bool)
    (h1 : ∀ c, (pendingCalls s).count c + callCount s c +
      (if c = job.handler.call then 1 else 0) = if c < s.ncalls then 1 else 0)
    (h2 : s.engine.observers ≠ [] → s.engine.starts ≠ 0) :
    Inv (runJob_onStellerSolverThread s job loadOk) := by
  cases loadOk with
  | false =>
    refine ⟨fun c => ?_, ?_⟩
    · have := h1 c
      simp only [count_pendingCalls, callCount] at this ⊢
      simp only [runJob_onStellerSolverThread, invokeHandler, Bool.not_false, if_true,
        List.map_append, List.count_append, List.map_cons, List.map_nil, List.count_cons,
        List.count_nil]
      by_cases hc : c = job.handler.call
      · subst hc; simp at this ⊢; omega
      · have hc2 : ¬ job.handler.call = c := fun e => hc e.symm
        simp [hc, hc2] at this ⊢; omega
    · simpa [runJob_onStellerSolverThread, invokeHandler] using h2
  | true =>
    refine ⟨fun c => ?_, ?_⟩
    · have := h1 c
      simp only [count_pendingCalls, callCount] at this ⊢
      cases hsc : job.solverScale <;>
      · simp only [runJob_onStellerSolverThread, Bool.not_true, hsc,
          List.map_append, List.count_append, List.map_cons, List.map_nil, List.count_cons,
          List.count_nil]
        by_cases hc : c = job.handler.call
        · subst hc; simp at this ⊢; omega
        · have hc2 : ¬ job.handler.call = c := fun e => hc e.symm
          simp [hc, hc2] at this ⊢; omega
    · cases hsc : job.solverScale <;> simp [runJob_onStellerSolverThread, hsc]

theorem cancel_frame (s : State) :
    (cancel s).threads = s.threads ∧ (cancel s).posted = s.posted ∧
      (cancel s).engine.observers = s.engine.observers ∧
      (cancel s).engine.starts = s.engine.starts ∧ (cancel s).calls = s.calls ∧
      (cancel s).ncalls = s.ncalls ∧ (cancel s).qapp = s.qapp ∧
      (cancel s).blocked = s.blocked ∧ (cancel s).promises = s.promises ∧
      (cancel s).returned = s.returned ∧ (cancel s).prevInfo = s.prevInfo ∧
      (cancel s).engine.useScale = s.engine.useScale ∧
      (cancel s).engine.searchScale = s.engine.searchScale ∧
      (cancel s).engine.image = s.engine.image := by
  unfold cancel
  cases s.engine.isRunning <;> cases s.canceller <;> simp

theorem inv_cancel {s : State} (h : Inv s) : Inv (cancel s) := by
  obtain ⟨ht, hp, ho, hs, hc, hn, -⟩ := cancel_frame s
  refine ⟨fun c => ?_, ?_⟩
  · have := h.1 c
    simpa [count_pendingCalls, callCount, ht, hp, ho, hc, hn] using this
  · rw [ho, hs]; exact h.2

theorem inv_solveAsync {s : State} (h : Inv s) (filePath : String)
    (hintRADec : Option AstroCoord) (usePrevInfo : Bool) (solvePoint : ImagePos)
    (loadOk : Bool) : Inv (solveAsync s filePath hintRADec usePrevInfo solvePoint loadOk) := by
  have hc := inv_cancel h
  unfold solveAsync
  generalize cancel s = s0 at hc ⊢
  rcases s0 with ⟨qapp, canceller, prevInfo, flags, engine, threads, posted, ncalls, blocked,
    promises, returned, calls⟩
  cases qapp with
  | false =>
    simp only [isBlocking, Bool.not_false, if_true]
    have key := inv_runJob
      { qapp := false, canceller := some flags.length, prevInfo := prevInfo,
        flags := flags ++ [false], engine := engine, threads := threads, posted := posted,
        ncalls := ncalls + 1, blocked := blocked, promises := promises, returned := returned,
        calls := calls }
      { filePath := filePath, cancellable := flags.length,
        solverScale := if usePrevInfo then prevInfo else none, hintRADec := hintRADec,
        solvePoint := solvePoint, handler := { call := ncalls, fulfils := true } } loadOk
      (by
        intro c
        have := hc.1 c
        simp only [count_pendingCalls, callCount] at this ⊢
        split_ifs at this ⊢ <;> omega)
      hc.2
    exact ⟨fun c => key.1 c, key.2⟩
  | true =>
    simp only [isBlocking, Bool.not_true, Bool.false_eq_true, if_false]
    refine ⟨fun c => ?_, ?_⟩
    · have := hc.1 c
      simp only [count_pendingCalls, callCount, List.map_append, List.count_append,
        List.map_cons, List.map_nil, List.count_cons, List.count_nil, beq_iff_eq] at this ⊢
      split_ifs at this ⊢ <;> omega
    · exact hc.2

theorem count_thread_pos {s : State} {t : Thread} (ht : t ∈ s.threads) :
    0 < (s.threads.map (fun t => t.job.handler.call)).count t.job.handler.call := by
  apply List.count_pos_iff.mpr
  exact List.mem_map.mpr ⟨t, ht, rfl⟩

theorem inv_setPc {s : State} (h : Inv s) (c : Nat) (pc : Pc) : Inv (setPc s c pc) := by
  refine ⟨fun k => ?_, h.2⟩
  have := h.1 k
  simp only [count_pendingCalls, callCount] at this
  simp only [count_pendingCalls, callCount, setPc, map_call_setPc]
  exact this

theorem inv_background {s s1 : State} {t : Thread} (h : Inv s) (ht : t ∈ s.threads)
    (hs : background s t = some s1) : Inv s1 := by
  have hpos := count_thread_pos ht
  unfold background at hs
  cases hpc : t.pc with
  | check =>
    simp only [hpc] at hs
    split at hs
    · cases hs
      exact inv_setPc (s := { s with engine := { s.engine with aborts := s.engine.aborts + 1 } })
        ⟨h.1, h.2⟩ _ _
    · cases hs; exact inv_setPc h _ _
  | waiting =>
    simp only [hpc] at hs
    split at hs
    · cases hs
    · cases hs; exact inv_setPc h _ _
  | recheck =>
    simp only [hpc] at hs
    split at hs
    · cases hs
      refine ⟨fun k => ?_, h.2⟩
      have := h.1 k
      by_cases hk : k = t.job.handler.call
      · subst hk
        simp only [count_pendingCalls, callCount, invokeHandler, endThread, count_endThread,
          List.map_append, List.count_append, List.map_cons, List.map_nil, List.count_cons,
          List.count_nil, beq_iff_eq] at this ⊢
        split_ifs at this ⊢ <;> omega
      · have hk2 : ¬ t.job.handler.call = k := fun e => hk e.symm
        simp only [count_pendingCalls, callCount, invokeHandler, endThread, count_endThread,
          List.map_append, List.count_append, List.map_cons, List.map_nil, List.count_cons,
          List.count_nil, beq_iff_eq, hk, hk2, if_false] at this ⊢
        omega
    · cases hs; exact inv_setPc h _ _
  | invoke =>
    simp only [hpc] at hs
    cases hs
    refine ⟨fun k => ?_, h.2⟩
    have := h.1 k
    by_cases hk : k = t.job.handler.call
    · subst hk
      simp only [count_pendingCalls, callCount, endThread, count_endThread,
        List.map_append, List.count_append, List.map_cons, List.map_nil, List.count_cons,
        List.count_nil, beq_iff_eq] at this ⊢
      split_ifs at this ⊢ <;> omega
    · have hk2 : ¬ t.job.handler.call = k := fun e => hk e.symm
      simp only [count_pendingCalls, callCount, endThread, count_endThread,
        List.map_append, List.count_append, List.map_cons, List.map_nil, List.count_cons,
        List.count_nil, beq_iff_eq, hk, hk2, if_false] at this ⊢
      omega

theorem inv_runPosted {s s1 : State} (h : Inv s) (loadOk : Bool)
    (hs : runPosted s loadOk = some s1) : Inv s1 := by
  unfold runPosted at hs
  cases hp : s.posted with
  | nil => simp [hp] at hs
  | cons job rest =>
    simp only [hp] at hs
    cases hs
    apply inv_runJob
    · intro c
      have := h.1 c
      simp only [count_pendingCalls, callCount, hp, List.map_cons, List.count_cons,
        beq_iff_eq] at this ⊢
      split_ifs at this ⊢ <;> omega
    · exact h.2

theorem ready_eq {s s1 : State} {a : Answers} (hs : ready s a = some s1) :
    s.engine.starts ≠ 0 ∧
      s1 = { s with
        engine := { s.engine with starts := s.engine.starts - 1, observers := [] }
        calls := s.calls ++
          s.engine.observers.map (fun job => (job.handler.call, readyResult s.flags a job))
        promises := s.promises ++
          (s.engine.observers.filter (fun job => job.handler.fulfils)).map
            (fun job => job.handler.call) } := by
  unfold ready at hs
  split at hs
  · cases hs
  · rename_i h0
    refine ⟨h0, ?_⟩
    simp only [foldl_readyHandler] at hs
    exact (Option.some.inj hs).symm

theorem inv_ready {s s1 : State} (h : Inv s) (a : Answers) (hs : ready s a = some s1) :
    Inv s1 := by
  obtain ⟨-, rfl⟩ := ready_eq hs
  refine ⟨fun c => ?_, by simp⟩
  have := h.1 c
  simp only [count_pendingCalls, callCount, List.map_append, List.count_append, List.map_map,
    List.map_nil, List.count_nil] at this ⊢
  have e : (Prod.fst ∘ fun job : Job => (job.handler.call, readyResult s.flags a job)) =
      fun job => job.handler.call := rfl
  rw [e]
  omega

theorem inv_step {s s1 : State} (h : Inv s) (a : Action) (hs : step s a = some s1) : Inv s1 := by
  cases a with
  | solveAsync filePath hintRADec usePrevInfo solvePoint loadOk =>
    cases hs; exact inv_solveAsync h _ _ _ _ _
  | cancel => cases hs; exact inv_cancel h
  | setPrevInfo value => cases hs; exact ⟨h.1, h.2⟩
  | background c =>
    simp only [step] at hs
    cases hf : findThread s c with
    | none => simp [hf] at hs
    | some t =>
      simp only [hf] at hs
      exact inv_background h (findThread_some hf).1 hs
  | runPosted loadOk => exact inv_runPosted h loadOk hs
  | ready a => exact inv_ready h a hs
  | solveReturn c =>
    simp only [step, solveReturn] at hs
    split at hs
    · cases hs; exact ⟨h.1, h.2⟩
    · cases hs

theorem inv_reachable {s : State} (h : Reachable s) : Inv s := by
  induction h with
  | init qapp => exact ⟨fun c => by simp [pendingCalls, callCount, PlateSolver], by simp [PlateSolver]⟩
  | step a _ hs ih => exact inv_step ih a hs

theorem map_setPc_of_count_zero (l : List Thread) (c : Nat) (pc : Pc)
    (h : (l.map (fun t => t.job.handler.call)).count c = 0) :
    l.map (fun t => if t.job.handler.call = c then { t with pc := pc } else t) = l := by
  induction l with
  | nil => rfl
  | cons x rest ih =>
    simp only [List.map_cons, List.count_cons, beq_iff_eq] at h
    have hx : ¬ x.job.handler.call = c := by
      intro e; simp [e] at h
    have hr : (rest.map (fun t => t.job.handler.call)).count c = 0 := by omega
    simp [hx, ih hr]

theorem filter_of_count_zero (l : List Thread) (c : Nat)
    (h : (l.map (fun t => t.job.handler.call)).count c = 0) :
    l.filter (fun t => t.job.handler.call != c) = l := by
  induction l with
  | nil => rfl
  | cons x rest ih =>
    simp only [List.map_cons, List.count_cons, beq_iff_eq] at h
    have hx : ¬ x.job.handler.call = c := by
      intro e; simp [e] at h
    have hr : (rest.map (fun t => t.job.handler.call)).count c = 0 := by omega
    simp [List.filter_cons, hx, ih hr]

theorem weight_setPc (l : List Thread) (t : Thread) (pc : Pc) (ht : t ∈ l)
    (h : (l.map (fun t => t.job.handler.call)).count t.job.handler.call ≤ 1) :
    ((l.map (fun x => if x.job.handler.call = t.job.handler.call then { x with pc := pc }
        else x)).map (fun x => x.pc.weight)).sum + t.pc.weight =
      (l.map (fun x => x.pc.weight)).sum + pc.weight := by
  induction l with
  | nil => cases ht
  | cons x rest ih =>
    simp only [List.map_cons, List.count_cons, beq_iff_eq] at h
    by_cases hx : x.job.handler.call = t.job.handler.call
    · have hr : (rest.map (fun t => t.job.handler.call)).count t.job.handler.call = 0 := by
        simp only [hx, if_true] at h; omega
      have htx : t = x := by
        rcases List.mem_cons.mp ht with e | e
        · exact e
        · have : 0 < (rest.map (fun t => t.job.handler.call)).count t.job.handler.call :=
            List.count_pos_iff.mpr (List.mem_map.mpr ⟨t, e, rfl⟩)
          omega
      subst htx
      rw [List.map_cons, map_setPc_of_count_zero rest _ pc hr]
      simp
      omega
    · have htr : t ∈ rest := by
        rcases List.mem_cons.mp ht with e | e
        · exact absurd (e ▸ rfl) hx
        · exact e
      have hr : (rest.map (fun t => t.job.handler.call)).count t.job.handler.call ≤ 1 := by
        simp only [hx, if_false] at h; omega
      have := ih htr hr
      simp only [List.map_cons, hx, if_false, List.sum_cons]
      omega

theorem weight_endThread (l : List Thread) (t : Thread) (ht : t ∈ l)
    (h : (l.map (fun t => t.job.handler.call)).count t.job.handler.call ≤ 1) :
    ((l.filter (fun x => x.job.handler.call != t.job.handler.call)).map
        (fun x => x.pc.weight)).sum + t.pc.weight = (l.map (fun x => x.pc.weight)).sum := by
  induction l with
  | nil => cases ht
  | cons x rest ih =>
    simp only [List.map_cons, List.count_cons, beq_iff_eq] at h
    by_cases hx : x.job.handler.call = t.job.handler.call
    · have hr : (rest.map (fun t => t.job.handler.call)).count t.job.handler.call = 0 := by
        simp only [hx, if_true] at h; omega
      have htx : t = x := by
        rcases List.mem_cons.mp ht with e | e
        · exact e
        · have : 0 < (rest.map (fun t => t.job.handler.call)).count t.job.handler.call :=
            List.count_pos_iff.mpr (List.mem_map.mpr ⟨t, e, rfl⟩)
          omega
      subst htx
      simp [List.filter_cons, filter_of_count_zero rest _ hr]
      omega
    · have htr : t ∈ rest := by
        rcases List.mem_cons.mp ht with e | e
        · exact absurd (e ▸ rfl) hx
        · exact e
      have hr : (rest.map (fun t => t.job.handler.call)).count t.job.handler.call ≤ 1 := by
        simp only [hx, if_false] at h; omega
      have := ih htr hr
      simp only [List.filter_cons, bne_iff_ne, ne_eq, hx, not_false_eq_true, decide_True,
        if_true, List.map_cons, List.sum_cons]
      omega

theorem count_thread_le_one {s : State} (h : Inv s) (c : Nat) :
    (s.threads.map (fun t => t.job.handler.call)).count c ≤ 1 := by
  have := h.1 c
  simp only [count_pendingCalls] at this
  split_ifs at this <;> omega

theorem workLeft_background {s s1 : State} {t : Thread} (h : Inv s) (ht : t ∈ s.threads)
    (hs : background s t = some s1) : workLeft s1 < workLeft s ∧ s1.ncalls = s.ncalls := by
  have hle := count_thread_le_one h t.job.handler.call
  have hset := fun pc => weight_setPc s.threads t pc ht hle
  have hend := weight_endThread s.threads t ht hle
  have w1 : Pc.check.weight = 6 := rfl
  have w2 : Pc.waiting.weight = 5 := rfl
  have w3 : Pc.recheck.weight = 4 := rfl
  have w4 : Pc.invoke.weight = 3 := rfl
  unfold background at hs
  cases hpc : t.pc with
  | check =>
    simp only [hpc] at hs
    rw [hpc, w1] at hset
    split at hs
    · cases hs
      have := hset Pc.waiting
      refine ⟨?_, rfl⟩
      simp only [workLeft, setPc]
      omega
    · cases hs
      have := hset Pc.invoke
      refine ⟨?_, rfl⟩
      simp only [workLeft, setPc]
      omega
  | waiting =>
    simp only [hpc] at hs
    rw [hpc, w2] at hset
    split at hs
    · cases hs
    · cases hs
      have := hset Pc.recheck
      refine ⟨?_, rfl⟩
      simp only [workLeft, setPc]
      omega
  | recheck =>
    simp only [hpc] at hs
    rw [hpc, w3] at hset hend
    split at hs
    · cases hs
      refine ⟨?_, rfl⟩
      simp only [workLeft, endThread, invokeHandler]
      omega
    · cases hs
      have := hset Pc.invoke
      refine ⟨?_, rfl⟩
      simp only [workLeft, setPc]
      omega
  | invoke =>
    simp only [hpc] at hs
    rw [hpc, w4] at hend
    cases hs
    refine ⟨?_, rfl⟩
    simp only [workLeft, endThread, List.length_append, List.length_singleton]
    omega

theorem workLeft_runJob (s : State) (job : Job) (loadOk : Bool) :
    workLeft (runJob_onStellerSolverThread s job loadOk) ≤ workLeft s + 1 ∧
      (runJob_onStellerSolverThread s job loadOk).ncalls = s.ncalls := by
  cases loadOk with
  | false => simp [runJob_onStellerSolverThread, invokeHandler, workLeft]
  | true =>
    cases hsc : job.solverScale <;>
      simp [runJob_onStellerSolverThread, workLeft, hsc] <;> omega

theorem workLeft_step {s s1 : State} (h : Inv s) (a : Action) (ha : a.internal = true)
    (hs : step s a = some s1) : workLeft s1 < workLeft s ∧ s1.ncalls = s.ncalls := by
  cases a with
  | solveAsync filePath hintRADec usePrevInfo solvePoint loadOk => simp [Action.internal] at ha
  | cancel => simp [Action.internal] at ha
  | setPrevInfo value => simp [Action.internal] at ha
  | background c =>
    simp only [step] at hs
    cases hf : findThread s c with
    | none => simp [hf] at hs
    | some t =>
      simp only [hf] at hs
      exact workLeft_background h (findThread_some hf).1 hs
  | runPosted loadOk =>
    simp only [step, runPosted] at hs
    cases hp : s.posted with
    | nil => simp [hp] at hs
    | cons job rest =>
      simp only [hp] at hs
      cases hs
      have := workLeft_runJob { s with posted := rest } job loadOk
      refine ⟨?_, this.2⟩
      have h2 : workLeft { s with posted := rest } + 2 = workLeft s := by
        simp [workLeft, hp]; omega
      omega
  | ready a =>
    obtain ⟨h0, rfl⟩ := ready_eq hs
    refine ⟨?_, rfl⟩
    simp only [workLeft]
    omega
  | solveReturn c =>
    simp only [step, solveReturn] at hs
    split at hs
    · rename_i hc
      cases hs
      refine ⟨?_, rfl⟩
      have hpos : 0 < s.blocked.length := List.length_pos_of_mem hc.1
      simp only [workLeft, List.length_erase_of_mem hc.1]
      omega
    · cases hs

theorem quiescent_idle {s : State} (h : Inv s) (hq : Quiescent s) :
    s.threads = [] ∧ s.posted = [] ∧ s.engine.starts = 0 ∧ s.engine.observers = [] := by
  have hstarts : s.engine.starts = 0 := by
    by_contra h0
    have := hq (Action.ready ⟨false, false, fun _ => none, ⟨0, 0, 0, 0⟩⟩) rfl
    simp [step, ready, h0] at this
  have hposted : s.posted = [] := by
    cases hp : s.posted with
    | nil => rfl
    | cons job rest =>
      have := hq (Action.runPosted true) rfl
      simp [step, runPosted, hp] at this
  have hthreads : s.threads = [] := by
    cases ht : s.threads with
    | nil => rfl
    | cons t rest =>
      have := hq (Action.background t.job.handler.call) rfl
      simp only [step, findThread, ht, List.find?_cons, beq_self_eq_true] at this
      unfold background at this
      have hrun : s.engine.isRunning = false := by simp [Engine.isRunning, hstarts]
      cases hpc : t.pc with
      | check => simp [hpc, hrun] at this
      | waiting => simp [hpc, hrun] at this
      | recheck =>
        simp only [hpc] at this
        split at this <;> simp at this
      | invoke => simp [hpc] at this
  refine ⟨hthreads, hposted, hstarts, ?_⟩
  by_contra ho
  exact h.2 ho hstarts

theorem reachable_run {s s1 : State} (tr : List Action) (h : Reachable s)
    (hr : run s tr = some s1) : Reachable s1 := by
  induction tr generalizing s with
  | nil => cases hr; exact h
  | cons a rest ih =>
    simp only [run] at hr
    cases hs : step s a with
    | none => simp [hs] at hr
    | some s2 =>
      simp only [hs, Option.some_bind] at hr
      exact ih (Reachable.step a h hs) hr

theorem callCount_quiescent {s : State} (h : Inv s) (hq : Quiescent s) (c : Nat) :
    callCount s c = if c < s.ncalls then 1 else 0 := by
  obtain ⟨ht, hp, -, ho⟩ := quiescent_idle h hq
  have := h.1 c
  simpa [pendingCalls, ht, hp, ho] using this

theorem exists_completion (n : Nat) : ∀ s : State, Reachable s → workLeft s ≤ n →
    ∃ tr s1, (∀ a ∈ tr, Action.internal a = true) ∧ run s tr = some s1 ∧ Quiescent s1 ∧
      s1.ncalls = s.ncalls := by
  induction n with
  | zero =>
    intro s hr hn
    refine ⟨[], s, by simp, rfl, ?_, rfl⟩
    intro a ha
    cases hs : step s a with
    | none => rfl
    | some s1 =>
      have := (workLeft_step (inv_reachable hr) a ha hs).1
      omega
  | succ n ih =>
    intro s hr hn
    by_cases hq : Quiescent s
    · exact ⟨[], s, by simp, rfl, hq, rfl⟩
    · unfold Quiescent at hq
      push_neg at hq
      obtain ⟨a, ha, hne⟩ := hq
      cases hs : step s a with
      | none => exact absurd hs hne
      | some s1 =>
        have hw := workLeft_step (inv_reachable hr) a ha hs
        obtain ⟨tr, s2, htr, hrun, hq2, hn2⟩ :=
          ih s1 (Reachable.step a hr hs) (by omega)
        refine ⟨a :: tr, s2, ?_, ?_, hq2, by rw [hn2, hw.2]⟩
        · intro b hb
          rcases List.mem_cons.mp hb with e | e
          · rw [e]; exact ha
          · exact htr b e
        · simp [run, hs, hrun]

/-- C2. The Result a job delivers once it has reached the engine: a failed `loadImage`
delivers the empty Result at once; a successful one delivers nothing yet and connects the
job to `ready`; at the notification a set flag gives the cancelled Result whatever the engine
answers, else a failed or unfinished solve gives the empty Result, else a failed conversion
gives the empty Result, else the Result is filled from the solution and the converted
point; and the delivered Result is valid exactly in that last case. -/
theorem delivered_result (s : State) (a : Answers) (job : Job) :
    (runJob_onStellerSolverThread s job false = invokeHandler s job.handler {} ∧
      Result.isValid {} = false) ∧
    ((runJob_onStellerSolverThread s job true).calls = s.calls ∧
      (runJob_onStellerSolverThread s job true).engine.observers =
        s.engine.observers ++ [job]) ∧
    (CancelFlag.isCancelled s.flags job.cancellable = true →
      readyHandler s a job = invokeHandler s job.handler { isCancelled := true }) ∧
    (CancelFlag.isCancelled s.flags job.cancellable = false →
      (a.failed = true ∨ a.solvingDone = false) →
      readyHandler s a job = invokeHandler s job.handler {}) ∧
    (CancelFlag.isCancelled s.flags job.cancellable = false → a.failed = false →
      a.solvingDone = true → a.pixelToWCS job.solvePoint = none →
      readyHandler s a job = invokeHandler s job.handler {}) ∧
    (∀ wcsCoord, CancelFlag.isCancelled s.flags job.cancellable = false → a.failed = false →
      a.solvingDone = true → a.pixelToWCS job.solvePoint = some wcsCoord →
      readyHandler s a job = invokeHandler s job.handler
        { fieldWidth := some a.getSolution.fieldWidth
          fieldHeight := some a.getSolution.fieldHeight
          rdJ2000 := some { ra := degToRad wcsCoord.ra, dec := degToRad wcsCoord.dec }
          pixelScale := some a.getSolution.pixscale
          rotation := some a.getSolution.orientation
          isCancelled := false }) ∧
    (∃ result, readyHandler s a job = invokeHandler s job.handler result ∧
      (result.isValid = true ↔
        (CancelFlag.isCancelled s.flags job.cancellable = false ∧ a.failed = false ∧
          a.solvingDone = true ∧ a.pixelToWCS job.solvePoint ≠ none))) := by
  refine ⟨⟨by simp [runJob_onStellerSolverThread], rfl⟩, ?_, ?_, ?_, ?_, ?_, ?_⟩
  · cases hsc : job.solverScale <;> simp [runJob_onStellerSolverThread, hsc]
  · intro h; simp [readyHandler, h]
  · intro h h2
    rcases h2 with h2 | h2 <;> simp [readyHandler, h, h2]
  · intro h h2 h3 h4; simp [readyHandler, h, h2, h3, h4]
  · intro w h h2 h3 h4; simp [readyHandler, h, h2, h3, h4]
  · refine ⟨readyResult s.flags a job, readyHandler_eq s a job, ?_⟩
    unfold readyResult
    cases h1 : CancelFlag.isCancelled s.flags job.cancellable <;>
      cases h2 : a.failed <;> cases h3 : a.solvingDone <;>
      cases h4 : a.pixelToWCS job.solvePoint <;> simp [Result.isValid]

/-- C6. `cancel()` while the engine reports it is not running changes nothing: no flag is
set, `_canceller` is kept, no abort is requested and no handler is invoked. -/
theorem cancel_not_running (s : State) (h : s.engine.isRunning = false) :
    cancel s = s ∧ step s Action.cancel = some s ∧ (cancel s).flags = s.flags ∧
      (cancel s).canceller = s.canceller ∧ (cancel s).engine.aborts = s.engine.aborts ∧
      (cancel s).calls = s.calls := by
  have e : cancel s = s := by simp [cancel, h]
  refine ⟨e, ?_, ?_, ?_, ?_, ?_⟩
  · simp [step, e]
  all_goals rw [e]

/-- The no-op statement applied to `cancel()` right after a first asynchronous call, the
engine not yet started. -/
theorem cancel_not_running_witness :
    (solveAsync (PlateSolver true) "m31.fits" none false (0, 0) true).engine.isRunning = false ∧
      cancel (solveAsync (PlateSolver true) "m31.fits" none false (0, 0) true) =
        solveAsync (PlateSolver true) "m31.fits" none false (0, 0) true :=
  ⟨rfl, (cancel_not_running
    (solveAsync (PlateSolver true) "m31.fits" none false (0, 0) true) rfl).1⟩

theorem runJob_frame (s : State) (job : Job) (loadOk : Bool) :
    (runJob_onStellerSolverThread s job loadOk).qapp = s.qapp ∧
      (runJob_onStellerSolverThread s job loadOk).flags = s.flags ∧
      (runJob_onStellerSolverThread s job loadOk).canceller = s.canceller ∧
      (runJob_onStellerSolverThread s job loadOk).threads = s.threads ∧
      (runJob_onStellerSolverThread s job loadOk).posted = s.posted ∧
      (runJob_onStellerSolverThread s job loadOk).ncalls = s.ncalls ∧
      (runJob_onStellerSolverThread s job loadOk).blocked = s.blocked ∧
      (runJob_onStellerSolverThread s job loadOk).returned = s.returned ∧
      (runJob_onStellerSolverThread s job loadOk).prevInfo = s.prevInfo := by
  cases loadOk
  · simp [runJob_onStellerSolverThread, invokeHandler]
  · cases hsc : job.solverScale <;> simp [runJob_onStellerSolverThread, hsc]

theorem step_qapp {s s1 : State} (a : Action) (hs : step s a = some s1) : s1.qapp = s.qapp := by
  cases a with
  | solveAsync filePath hintRADec usePrevInfo solvePoint loadOk =>
    cases hs
    have hq := (cancel_frame s).2.2.2.2.2.2.1
    unfold solveAsync
    generalize cancel s = s0 at hq ⊢
    rw [← hq]
    simp only []
    split
    · simp only [(runJob_frame _ _ _).1]
    · rfl
  | cancel => cases hs; exact (cancel_frame s).2.2.2.2.2.2.1
  | setPrevInfo value => cases hs; rfl
  | background c =>
    simp only [step] at hs
    cases hf : findThread s c with
    | none => simp [hf] at hs
    | some t =>
      simp only [hf, background] at hs
      cases hpc : t.pc <;> simp only [hpc] at hs
      · split at hs <;> cases hs <;> rfl
      · split at hs <;> cases hs; rfl
      · split at hs <;> cases hs <;> rfl
      · cases hs; rfl
  | runPosted loadOk =>
    simp only [step, runPosted] at hs
    cases hp : s.posted with
    | nil => simp [hp] at hs
    | cons job rest =>
      simp only [hp] at hs
      cases hs
      simp only [(runJob_frame _ _ _).1]
  | ready a =>
    obtain ⟨-, rfl⟩ := ready_eq hs
    rfl
  | solveReturn c =>
    simp only [step, solveReturn] at hs
    split at hs
    · cases hs; rfl
    · cases hs

/-- In blocking mode no background thread exists, nothing is posted, a fulfilled promise
means the handler ran, and only calls with a fulfilled promise have returned. -/
theorem blocking_inv {s : State} (h : Reachable s) (hb : s.qapp = false) :
    s.threads = [] ∧ s.posted = [] ∧ (∀ c ∈ s.promises, c ∈ s.calls.map Prod.fst) ∧
      (∀ c ∈ s.returned, c ∈ s.promises) := by
  induction h with
  | init qapp => simp [PlateSolver]
  | @step s s1 a hr hs ih =>
    have hq : s.qapp = false := by rw [← step_qapp a hs]; exact hb
    obtain ⟨h1, h2, h3, h4⟩ := ih hq
    cases a with
    | solveAsync filePath hintRADec usePrevInfo solvePoint loadOk =>
      cases hs
      obtain ⟨ct, cp, -, -, cc, -, cq, -, cpr, cr, -⟩ := cancel_frame s
      unfold solveAsync
      rw [← ct] at h1; rw [← cp] at h2; rw [← cpr, ← cc] at h3; rw [← cr, ← cpr] at h4
      rw [← cq] at hq
      generalize cancel s = s0 at h1 h2 h3 h4 hq ⊢
      simp only [isBlocking, hq, Bool.not_false, if_true]
      cases loadOk with
      | false =>
        simp only [runJob_onStellerSolverThread, invokeHandler, Bool.not_false, if_true]
        refine ⟨h1, h2, ?_, ?_⟩
        · intro c hc
          simp only [List.mem_append, List.mem_singleton, List.map_append, List.map_cons,
            List.map_nil] at hc ⊢
          rcases hc with hc | hc
          · exact Or.inl (h3 c hc)
          · exact Or.inr hc
        · intro c hc
          exact List.mem_append_left _ (h4 c hc)
      | true =>
        cases hsc : (if usePrevInfo = true then s0.prevInfo else none) <;>
          simp only [runJob_onStellerSolverThread, hsc, Bool.not_true, Bool.false_eq_true,
            if_false] <;> exact ⟨h1, h2, h3, h4⟩
    | cancel =>
      cases hs
      obtain ⟨ct, cp, -, -, cc, -, -, -, cpr, cr, -⟩ := cancel_frame s
      rw [ct, cp, cc, cpr, cr]
      exact ⟨h1, h2, h3, h4⟩
    | setPrevInfo value => cases hs; exact ⟨h1, h2, h3, h4⟩
    | background c => simp [step, findThread, h1] at hs
    | runPosted loadOk => simp [step, runPosted, h2] at hs
    | ready a =>
      obtain ⟨-, rfl⟩ := ready_eq hs
      refine ⟨h1, h2, ?_, ?_⟩
      · intro c hc
        simp only [List.mem_append, List.map_append, List.map_map] at hc ⊢
        rcases hc with hc | hc
        · exact Or.inl (h3 c hc)
        · right
          obtain ⟨job, hj, rfl⟩ := List.mem_map.mp hc
          exact List.mem_map.mpr ⟨job, (List.mem_filter.mp hj).1, rfl⟩
      · intro c hc
        exact List.mem_append_left _ (h4 c hc)
    | solveReturn c =>
      simp only [step, solveReturn] at hs
      split at hs
      · rename_i hc
        cases hs
        refine ⟨h1, h2, h3, ?_⟩
        intro k hk
        rcases List.mem_append.mp hk with hk | hk
        · exact h4 k hk
        · rw [List.mem_singleton.mp hk]; exact hc.2
      · cases hs

theorem callCount_eq_one {s : State} (h : Inv s) {c : Nat} (hc : c ∈ s.calls.map Prod.fst) :
    callCount s c = 1 := by
  have hpos : 0 < callCount s c := List.count_pos_iff.mpr hc
  have := h.1 c
  split_ifs at this <;> omega

theorem solveAsync_blocking (s : State) (hb : s.qapp = false) (filePath : String)
    (hintRADec : Option AstroCoord) (usePrevInfo : Bool) (solvePoint : ImagePos)
    (loadOk : Bool) :
    s.ncalls ∈ (solveAsync s filePath hintRADec usePrevInfo solvePoint loadOk).blocked ∧
      (solveAsync s filePath hintRADec usePrevInfo solvePoint loadOk).returned = s.returned ∧
      (loadOk = false →
        s.ncalls ∈ (solveAsync s filePath hintRADec usePrevInfo solvePoint loadOk).calls.map
          Prod.fst) ∧
      (loadOk = true →
        ∃ job ∈ (solveAsync s filePath hintRADec usePrevInfo solvePoint loadOk).engine.observers,
          job.handler.call = s.ncalls ∧ job.filePath = filePath ∧
          (solveAsync s filePath hintRADec usePrevInfo solvePoint loadOk).engine.starts =
            s.engine.starts + 1) := by
  obtain ⟨-, -, -, cs, -, cn, cq, -, -, cr, -⟩ := cancel_frame s
  unfold solveAsync
  rw [← cq] at hb
  rw [← cn, ← cr, ← cs]
  generalize cancel s = s0 at hb ⊢
  simp only [isBlocking, hb, Bool.not_false, if_true]
  cases loadOk with
  | false => simp [runJob_onStellerSolverThread, invokeHandler]
  | true =>
    cases hsc : (if usePrevInfo = true then s0.prevInfo else none) <;>
      simp [runJob_onStellerSolverThread, hsc] <;> exact ⟨_, Or.inr rfl, rfl, rfl⟩

/-- C8. In blocking mode `solveAsync` does not return before its handler has run: every
call that has returned has had its handler invoked (once), the return step is enabled only
then, no background thread is ever spawned and nothing is posted to the engine's context;
a new call runs its job on the calling thread (a failed load invokes the handler within the
call, a successful one starts the engine within the call) and is left waiting. -/
theorem blocking_returns_after_handler (s : State) (h : Reachable s)
    (hb : isBlocking s = true) :
    (∀ c ∈ s.returned, callCount s c = 1) ∧
    (∀ c s1, step s (Action.solveReturn c) = some s1 → callCount s c = 1) ∧
    (s.threads = [] ∧ s.posted = []) ∧
    (∀ filePath hintRADec usePrevInfo solvePoint loadOk,
      (solveAsync s filePath hintRADec usePrevInfo solvePoint loadOk).threads = [] ∧
      (solveAsync s filePath hintRADec usePrevInfo solvePoint loadOk).posted = [] ∧
      s.ncalls ∈ (solveAsync s filePath hintRADec usePrevInfo solvePoint loadOk).blocked ∧
      s.ncalls ∉ (solveAsync s filePath hintRADec usePrevInfo solvePoint loadOk).returned ∧
      (loadOk = false →
        callCount (solveAsync s filePath hintRADec usePrevInfo solvePoint loadOk) s.ncalls = 1) ∧
      (loadOk = true →
        ∃ job ∈ (solveAsync s filePath hintRADec usePrevInfo solvePoint loadOk).engine.observers,
          job.handler.call = s.ncalls ∧ job.filePath = filePath ∧
          (solveAsync s filePath hintRADec usePrevInfo solvePoint loadOk).engine.starts =
            s.engine.starts + 1)) := by
  have hq : s.qapp = false := by simpa [isBlocking] using hb
  have hi := inv_reachable h
  obtain ⟨h1, h2, h3, h4⟩ := blocking_inv h hq
  refine ⟨fun c hc => callCount_eq_one hi (h3 c (h4 c hc)), ?_, ⟨h1, h2⟩, ?_⟩
  · intro c s1 hs
    simp only [step, solveReturn] at hs
    split at hs
    · rename_i hc
      exact callCount_eq_one hi (h3 c hc.2)
    · cases hs
  · intro filePath hintRADec usePrevInfo solvePoint loadOk
    have hr1 : Reachable (solveAsync s filePath hintRADec usePrevInfo solvePoint loadOk) :=
      Reachable.step (Action.solveAsync filePath hintRADec usePrevInfo solvePoint loadOk) h rfl
    have hq1 : (solveAsync s filePath hintRADec usePrevInfo solvePoint loadOk).qapp = false := by
      rw [step_qapp (Action.solveAsync filePath hintRADec usePrevInfo solvePoint loadOk) rfl]
      exact hq
    obtain ⟨k1, k2, -, -⟩ := blocking_inv hr1 hq1
    obtain ⟨b1, b2, b3, b4⟩ :=
      solveAsync_blocking s hq filePath hintRADec usePrevInfo solvePoint loadOk
    refine ⟨k1, k2, b1, ?_, fun hl => callCount_eq_one (inv_reachable hr1) (b3 hl), b4⟩
    rw [b2]
    intro hc
    have := callCount_eq_one hi (h3 _ (h4 _ hc))
    have h0 := hi.1 s.ncalls
    simp only [lt_irrefl, if_false] at h0
    omega

/-- The blocking-mode statement applied to a call that solved its image and returned. -/
theorem blocking_returns_after_handler_witness :
    run (PlateSolver false)
        [Action.solveAsync "m31.fits" none false (0, 0) true,
          Action.ready ⟨false, true, fun _ => some ⟨150, 20⟩, ⟨2, 1, 3, 30⟩⟩,
          Action.solveReturn 0] = some solvedBlocking ∧
      isBlocking solvedBlocking = true ∧ solvedBlocking.returned = [0] ∧
      callCount solvedBlocking 0 = 1 :=
  ⟨rfl, rfl, rfl,
    (blocking_returns_after_handler solvedBlocking
      (reachable_run
        [Action.solveAsync "m31.fits" none false (0, 0) true,
          Action.ready ⟨false, true, fun _ => some ⟨150, 20⟩, ⟨2, 1, 3, 30⟩⟩,
          Action.solveReturn 0] (Reachable.init false) rfl) rfl).1 0 (by decide)⟩

theorem runJob_scale (s : State) (job : Job) (loadOk : Bool) :
    (job.solverScale = none →
      (runJob_onStellerSolverThread s job loadOk).engine.useScale = s.engine.useScale ∧
      (runJob_onStellerSolverThread s job loadOk).engine.searchScale = s.engine.searchScale) ∧
    (loadOk = false →
      (runJob_onStellerSolverThread s job loadOk).engine.useScale = s.engine.useScale ∧
      (runJob_onStellerSolverThread s job loadOk).engine.searchScale = s.engine.searchScale) ∧
    (∀ scale, job.solverScale = some scale → loadOk = true →
      (runJob_onStellerSolverThread s job loadOk).engine.useScale = true ∧
      (runJob_onStellerSolverThread s job loadOk).engine.searchScale = some scale) := by
  cases loadOk <;> cases hsc : job.solverScale <;>
    simp [runJob_onStellerSolverThread, invokeHandler, hsc]

theorem background_frame {s s1 : State} {t : Thread} (hs : background s t = some s1) :
    s1.engine.useScale = s.engine.useScale ∧ s1.engine.searchScale = s.engine.searchScale ∧
      (∀ x ∈ s1.threads, ∃ y ∈ s.threads, x.job = y.job) ∧
      (∀ j ∈ s1.posted, j ∈ s.posted ∨ j = t.job) := by
  have hset : ∀ (l : List Thread) (c : Nat) (pc : Pc),
      ∀ x ∈ l.map (fun t => if t.job.handler.call = c then { t with pc := pc } else t),
        ∃ y ∈ l, x.job = y.job := by
    intro l c pc x hx
    obtain ⟨y, hy, rfl⟩ := List.mem_map.mp hx
    refine ⟨y, hy, ?_⟩
    by_cases h : y.job.handler.call = c <;> simp [h]
  have hend : ∀ (l : List Thread) (c : Nat),
      ∀ x ∈ l.filter (fun t => t.job.handler.call != c), ∃ y ∈ l, x.job = y.job :=
    fun l c x hx => ⟨x, (List.mem_filter.mp hx).1, rfl⟩
  unfold background at hs
  cases hpc : t.pc <;> simp only [hpc] at hs
  · split at hs <;> cases hs <;>
      exact ⟨rfl, rfl, hset _ _ _, fun j hj => Or.inl hj⟩
  · split at hs <;> cases hs
    exact ⟨rfl, rfl, hset _ _ _, fun j hj => Or.inl hj⟩
  · split at hs <;> cases hs
    · exact ⟨rfl, rfl, hend _ _, fun j hj => Or.inl hj⟩
    · exact ⟨rfl, rfl, hset _ _ _, fun j hj => Or.inl hj⟩
  · cases hs
    refine ⟨rfl, rfl, hend _ _, fun j hj => ?_⟩
    rcases List.mem_append.mp hj with h | h
    · exact Or.inl h
    · exact Or.inr (List.mem_singleton.mp h)

theorem step_scale {s s1 : State} (a : Action) (hs : step s a = some s1) :
    (s1.engine.useScale = s.engine.useScale ∧ s1.engine.searchScale = s.engine.searchScale) ∨
      ∃ job scale, job.solverScale = some scale ∧ job ∈ s1.engine.observers ∧
        s1.engine.useScale = true ∧ s1.engine.searchScale = some scale := by
  cases a with
  | solveAsync filePath hintRADec usePrevInfo solvePoint loadOk =>
    cases hs
    obtain ⟨-, -, -, -, -, -, -, -, -, -, -, cu, cs, -⟩ := cancel_frame s
    unfold solveAsync
    rw [← cu, ← cs]
    generalize cancel s = s0
    simp only []
    split
    · cases loadOk with
      | false => left; simp [runJob_onStellerSolverThread, invokeHandler]
      | true =>
        cases hsc : (if usePrevInfo = true then s0.prevInfo else none) with
        | none => left; simp [runJob_onStellerSolverThread, hsc]
        | some scale =>
          right
          simp only [runJob_onStellerSolverThread, hsc, Bool.not_true, Bool.false_eq_true,
            if_false]
          refine ⟨_, scale, ?_, List.mem_append_right _ (List.mem_singleton_self _), ?_, ?_⟩ <;>
            first
            | rfl
            | trivial
    · left; exact ⟨rfl, rfl⟩
  | cancel =>
    cases hs
    obtain ⟨-, -, -, -, -, -, -, -, -, -, -, cu, cs, -⟩ := cancel_frame s
    exact Or.inl ⟨cu, cs⟩
  | setPrevInfo value => cases hs; exact Or.inl ⟨rfl, rfl⟩
  | background c =>
    simp only [step] at hs
    cases hf : findThread s c with
    | none => simp [hf] at hs
    | some t =>
      simp only [hf] at hs
      obtain ⟨h1, h2, -⟩ := background_frame hs
      exact Or.inl ⟨h1, h2⟩
  | runPosted loadOk =>
    simp only [step, runPosted] at hs
    cases hp : s.posted with
    | nil => simp [hp] at hs
    | cons job rest =>
      simp only [hp] at hs
      cases hs
      cases loadOk with
      | false => left; simp [runJob_onStellerSolverThread, invokeHandler]
      | true =>
        cases hsc : job.solverScale with
        | none => left; simp [runJob_onStellerSolverThread, hsc]
        | some scale =>
          right
          refine ⟨job, scale, hsc, ?_⟩
          simp [runJob_onStellerSolverThread, hsc]
  | ready a =>
    obtain ⟨-, rfl⟩ := ready_eq hs
    exact Or.inl ⟨rfl, rfl⟩
  | solveReturn c =>
    simp only [step, solveReturn] at hs
    split at hs
    · cases hs; exact Or.inl ⟨rfl, rfl⟩
    · cases hs

theorem solveAsync_captures (s : State) (filePath : String) (hintRADec : Option AstroCoord)
    (usePrevInfo : Bool) (solvePoint : ImagePos) (loadOk : Bool) :
    (∀ t ∈ (solveAsync s filePath hintRADec usePrevInfo solvePoint loadOk).threads,
      t ∈ s.threads ∨ t.job.solverScale = if usePrevInfo then s.prevInfo else none) ∧
    (∀ job ∈ (solveAsync s filePath hintRADec usePrevInfo solvePoint loadOk).engine.observers,
      job ∈ s.engine.observers ∨ job.solverScale = if usePrevInfo then s.prevInfo else none) ∧
    (solveAsync s filePath hintRADec usePrevInfo solvePoint loadOk).posted = s.posted := by
  obtain ⟨ct, cp, co, -, -, -, -, -, -, -, cpi, -⟩ := cancel_frame s
  unfold solveAsync
  rw [← ct, ← co, ← cpi, ← cp]
  generalize cancel s = s0
  simp only []
  split
  · cases loadOk with
    | false =>
      simp only [runJob_onStellerSolverThread, invokeHandler, Bool.not_false, if_true]
      exact ⟨fun t ht => Or.inl ht, fun j hj => Or.inl hj, trivial⟩
    | true =>
      cases hsc : (if usePrevInfo = true then s0.prevInfo else none) <;>
      · simp only [runJob_onStellerSolverThread, hsc, Bool.not_true, Bool.false_eq_true,
          if_false]
        refine ⟨fun t ht => Or.inl ht, fun j hj => ?_, trivial⟩
        rcases List.mem_append.mp hj with h | h
        · exact Or.inl h
        · right; rw [List.mem_singleton.mp h]
  · refine ⟨fun t ht => ?_, fun j hj => Or.inl hj, rfl⟩
    rcases List.mem_append.mp ht with h | h
    · exact Or.inl h
    · right; rw [List.mem_singleton.mp h]

theorem solveAsync_unhinted_scale (s : State) (filePath : String)
    (hintRADec : Option AstroCoord) (solvePoint : ImagePos) (loadOk : Bool) :
    (solveAsync s filePath hintRADec false solvePoint loadOk).engine.useScale =
        s.engine.useScale ∧
      (solveAsync s filePath hintRADec false solvePoint loadOk).engine.searchScale =
        s.engine.searchScale := by
  obtain ⟨-, -, -, -, -, -, -, -, -, -, -, cu, cs, -⟩ := cancel_frame s
  unfold solveAsync
  rw [← cu, ← cs]
  generalize cancel s = s0
  simp only [Bool.false_eq_true, if_false]
  split
  · cases loadOk <;> simp [runJob_onStellerSolverThread, invokeHandler]
  · exact ⟨rfl, rfl⟩

theorem step_unhinted {s s1 : State} (a : Action) (ha : Action.reusesHint a = false)
    (hs : step s a = some s1) (ht : ∀ t ∈ s.threads, t.job.solverScale = none)
    (hp : ∀ job ∈ s.posted, job.solverScale = none) :
    (∀ t ∈ s1.threads, t.job.solverScale = none) ∧
      (∀ job ∈ s1.posted, job.solverScale = none) ∧
      s1.engine.useScale = s.engine.useScale ∧ s1.engine.searchScale = s.engine.searchScale := by
  cases a with
  | solveAsync filePath hintRADec usePrevInfo solvePoint loadOk =>
    cases hs
    have hu : usePrevInfo = false := ha
    subst hu
    obtain ⟨c1, c2, c3⟩ := solveAsync_captures s filePath hintRADec false solvePoint loadOk
    simp only [Bool.false_eq_true, if_false] at c1 c2
    have k1 : ∀ t ∈ (solveAsync s filePath hintRADec false solvePoint loadOk).threads,
        t.job.solverScale = none := fun t h => (c1 t h).elim (ht t) id
    exact ⟨k1, by rw [c3]; exact hp,
      solveAsync_unhinted_scale s filePath hintRADec solvePoint loadOk⟩
  | cancel =>
    cases hs
    obtain ⟨ct, cp, -, -, -, -, -, -, -, -, -, cu, cs, -⟩ := cancel_frame s
    rw [ct, cp]
    exact ⟨ht, hp, cu, cs⟩
  | setPrevInfo value => cases hs; exact ⟨ht, hp, rfl, rfl⟩
  | background c =>
    simp only [step] at hs
    cases hf : findThread s c with
    | none => simp [hf] at hs
    | some t =>
      simp only [hf] at hs
      obtain ⟨h1, h2, h3, h4⟩ := background_frame hs
      refine ⟨fun x hx => ?_, fun j hj => ?_, h1, h2⟩
      · obtain ⟨y, hy, e⟩ := h3 x hx
        rw [e]; exact ht y hy
      · rcases h4 j hj with h | h
        · exact hp j h
        · rw [h]; exact ht t (findThread_some hf).1
  | runPosted loadOk =>
    simp only [step, runPosted] at hs
    cases hpo : s.posted with
    | nil => simp [hpo] at hs
    | cons job rest =>
      simp only [hpo] at hs
      cases hs
      have hj : job.solverScale = none := hp job (by rw [hpo]; exact List.mem_cons_self _ _)
      obtain ⟨f1, -, -, f4, f5, -⟩ := runJob_frame { s with posted := rest } job loadOk
      rw [f4, f5]
      refine ⟨ht, fun j hj2 => hp j (by rw [hpo]; exact List.mem_cons_of_mem _ hj2), ?_⟩
      exact (runJob_scale { s with posted := rest } job loadOk).1 hj
  | ready a =>
    obtain ⟨-, rfl⟩ := ready_eq hs
    exact ⟨ht, hp, rfl, rfl⟩
  | solveReturn c =>
    simp only [step, solveReturn] at hs
    split at hs
    · cases hs; exact ⟨ht, hp, rfl, rfl⟩
    · cases hs

theorem run_unhinted (tr : List Action) : ∀ (s s2 : State),
    (∀ t ∈ s.threads, t.job.solverScale = none) →
    (∀ job ∈ s.posted, job.solverScale = none) →
    (∀ a ∈ tr, Action.reusesHint a = false) → run s tr = some s2 →
    s2.engine.useScale = s.engine.useScale ∧ s2.engine.searchScale = s.engine.searchScale := by
  induction tr with
  | nil =>
    intro s s2 _ _ _ hr
    cases hr
    exact ⟨rfl, rfl⟩
  | cons a rest ih =>
    intro s s2 ht hp ha hr
    simp only [run] at hr
    cases hs : step s a with
    | none => simp [hs] at hr
    | some s1 =>
      simp only [hs, Option.some_bind] at hr
      obtain ⟨h1, h2, h3, h4⟩ := step_unhinted a (ha a (List.mem_cons_self _ _)) hs ht hp
      obtain ⟨k1, k2⟩ := ih s1 s2 h1 h2 (fun b hb => ha b (List.mem_cons_of_mem _ hb)) hr
      exact ⟨k1.trans h3, k2.trans h4⟩

/-- C10. A job without a captured scale hint issues no scale configuration: it leaves
`UseScale` and the search scale as they are, and `solveAsync` captures no hint when
`usePrevInfo` is false or nothing is stored.  The constructor writes `UseScale = false` and
no step ever does: a step leaves the configuration alone or is the start of a hinted job,
which sets `UseScale = true` and its own scale.  So after a hinted job has started, as long
as no hinted job is pending and no later call reuses the hint, every later job starts the
engine with `UseScale` true and that job's search scale. -/
theorem scale_hint_persists :
    (∀ (s : State) (job : Job) (loadOk : Bool), job.solverScale = none →
      (runJob_onStellerSolverThread s job loadOk).engine.useScale = s.engine.useScale ∧
      (runJob_onStellerSolverThread s job loadOk).engine.searchScale = s.engine.searchScale) ∧
    (∀ (s : State) (filePath : String) (hintRADec : Option AstroCoord) (usePrevInfo : Bool)
      (solvePoint : ImagePos) (loadOk : Bool), (usePrevInfo = false ∨ s.prevInfo = none) →
      (∀ t ∈ (solveAsync s filePath hintRADec usePrevInfo solvePoint loadOk).threads,
        t ∈ s.threads ∨ t.job.solverScale = none) ∧
      (∀ job ∈ (solveAsync s filePath hintRADec usePrevInfo solvePoint loadOk).engine.observers,
        job ∈ s.engine.observers ∨ job.solverScale = none)) ∧
    (∀ qapp : Bool, (PlateSolver qapp).engine.useScale = false) ∧
    (∀ (s s1 : State) (a : Action), step s a = some s1 →
      (s1.engine.useScale = s.engine.useScale ∧ s1.engine.searchScale = s.engine.searchScale) ∨
      ∃ job scale, job.solverScale = some scale ∧ job ∈ s1.engine.observers ∧
        s1.engine.useScale = true ∧ s1.engine.searchScale = some scale) ∧
    (∀ (s s1 : State) (a : Action), step s a = some s1 → s.engine.useScale = true →
      s1.engine.useScale = true) ∧
    (∀ (s s2 : State) (job job2 : Job) (scale : SolverScale) (tr : List Action),
      job.solverScale = some scale →
      (∀ t ∈ s.threads, t.job.solverScale = none) →
      (∀ j ∈ s.posted, j.solverScale = none) →
      (∀ a ∈ tr, Action.reusesHint a = false) →
      run (runJob_onStellerSolverThread s job true) tr = some s2 →
      job2.solverScale = none →
      (runJob_onStellerSolverThread s2 job2 true).engine.useScale = true ∧
      (runJob_onStellerSolverThread s2 job2 true).engine.searchScale = some scale ∧
      (runJob_onStellerSolverThread s2 job2 true).engine.starts = s2.engine.starts + 1) := by
  refine ⟨fun s job loadOk h => (runJob_scale s job loadOk).1 h, ?_, fun _ => rfl,
    fun s s1 a hs => step_scale a hs, ?_, ?_⟩
  · intro s filePath hintRADec usePrevInfo solvePoint loadOk h
    obtain ⟨c1, c2, -⟩ := solveAsync_captures s filePath hintRADec usePrevInfo solvePoint loadOk
    have e : (if usePrevInfo = true then s.prevInfo else none) = none := by
      rcases h with h | h
      · simp [h]
      · simp [h]
    rw [e] at c1 c2
    exact ⟨c1, c2⟩
  · intro s s1 a hs hu
    rcases step_scale a hs with h | ⟨_, _, _, _, h, _⟩
    · rw [h.1]; exact hu
    · exact h
  · intro s s2 job job2 scale tr hj ht hp ha hr hj2
    obtain ⟨-, -, -, f4, f5, -⟩ := runJob_frame s job true
    obtain ⟨k1, k2⟩ := run_unhinted tr (runJob_onStellerSolverThread s job true) s2
      (by rw [f4]; exact ht) (by rw [f5]; exact hp) ha hr
    obtain ⟨m1, m2⟩ := (runJob_scale s job true).2.2 scale hj rfl
    obtain ⟨n1, n2⟩ := (runJob_scale s2 job2 true).1 hj2
    refine ⟨by rw [n1, k1, m1], by rw [n2, k2, m2], ?_⟩
    simp [runJob_onStellerSolverThread, hj2]

theorem isCancelled_set (flags : List Bool) (i k : Nat)
    (h : CancelFlag.isCancelled flags k = true) :
    CancelFlag.isCancelled (CancelFlag.cancel flags i) k = true := by
  unfold CancelFlag.isCancelled CancelFlag.cancel at *
  rw [List.getD_eq_getElem?_getD] at h ⊢
  rw [List.getElem?_set]
  split
  · rename_i e
    subst e
    split
    · simp
    · rename_i hn
      rw [List.getElem?_eq_none (by omega)] at h
      simp at h
  · exact h

theorem cancel_flags (s : State) :
    (cancel s).flags.length = s.flags.length ∧
      (∀ k, CancelFlag.isCancelled s.flags k = true →
        CancelFlag.isCancelled (cancel s).flags k = true) := by
  unfold cancel
  cases s.engine.isRunning <;> cases hc : s.canceller <;>
    simp [CancelFlag.cancel]
  intro k hk
  exact isCancelled_set s.flags _ k hk

/-- C7 fails on the code. Two calls admitted while the engine is idle: both background
threads find it not running and post their job; when the second posted job is run the
engine is running the first job, whose observer is still connected, and the second image is
loaded and the engine started again. -/
theorem two_solves_started_concurrently :
    (run (PlateSolver true)
      [Action.solveAsync "m31.fits" none false (0, 0) true,
        Action.solveAsync "m33.fits" none false (0, 0) true, Action.background 0,
        Action.background 0, Action.background 1, Action.background 1,
        Action.runPosted true]).map
        (fun s => (s.engine.isRunning, s.engine.observers, s.engine.image, s.posted)) =
      some (true, [firstJob], some "m31.fits", [secondJob]) ∧
    (run (PlateSolver true)
      [Action.solveAsync "m31.fits" none false (0, 0) true,
        Action.solveAsync "m33.fits" none false (0, 0) true, Action.background 0,
        Action.background 0, Action.background 1, Action.background 1,
        Action.runPosted true, Action.runPosted true]).map
        (fun s => (s.engine.starts, s.engine.observers, s.engine.image, s.calls)) =
      some (2, [firstJob, secondJob], some "m33.fits", ([] : List (Nat × Result))) := by
  constructor
  · decide
  · decide

/-- C9 fails on the code. The second call is cancelled while the engine runs the first job,
so its flag is set; the engine stops before the second call's thread looks, and because the
test of the job's own flag sits inside the `isRunning()` block the thread skips it: the job is
posted, its image is loaded and the engine is started, the flag being set throughout and the
handler not invoked. -/
theorem cancelled_job_handed_to_engine :
    (run (PlateSolver true)
      (startFirst ++ [Action.solveAsync "m33.fits" none false (0, 0) true, Action.cancel,
        Action.ready solved])).map
        (fun s => (s.threads, CancelFlag.isCancelled s.flags 1, s.engine.isRunning)) =
      some ([{ job := secondJob, pc := Pc.check }], true, false) ∧
    (run (PlateSolver true)
      (startFirst ++ [Action.solveAsync "m33.fits" none false (0, 0) true, Action.cancel,
        Action.ready solved, Action.background 1, Action.background 1,
        Action.runPosted true])).map
        (fun s => (s.engine.observers, s.engine.image, s.engine.starts,
          CancelFlag.isCancelled s.flags 1, callCount s 1)) =
      some ([secondJob], some "m33.fits", 1, true, 0) := by
  decide

theorem background_ncalls {s s1 : State} {t : Thread} (hs : background s t = some s1) :
    s1.ncalls = s.ncalls := by
  unfold background at hs
  cases hpc : t.pc <;> simp only [hpc] at hs
  · split at hs <;> cases hs <;> rfl
  · split at hs <;> cases hs; rfl
  · split at hs <;> cases hs <;> rfl
  · cases hs; rfl

theorem solveAsync_ncalls (s : State) (filePath : String) (hintRADec : Option AstroCoord)
    (usePrevInfo : Bool) (solvePoint : ImagePos) (loadOk : Bool) :
    (solveAsync s filePath hintRADec usePrevInfo solvePoint loadOk).ncalls = s.ncalls + 1 := by
  have cn := (cancel_frame s).2.2.2.2.2.1
  unfold solveAsync
  rw [← cn]
  generalize cancel s = s0
  simp only []
  split
  · simp only [(runJob_frame _ _ _).2.2.2.2.2.1]
  · rfl

theorem step_ncalls {s s1 : State} (a : Action) (hs : step s a = some s1) :
    s1.ncalls = s.ncalls + if Action.isRequest a = true then 1 else 0 := by
  cases a with
  | solveAsync filePath hintRADec usePrevInfo solvePoint loadOk =>
    cases hs
    simp [Action.isRequest, solveAsync_ncalls]
  | cancel => cases hs; simpa [Action.isRequest] using (cancel_frame s).2.2.2.2.2.1
  | setPrevInfo value => cases hs; simp [Action.isRequest, setPrevInfo]
  | background c =>
    simp only [step] at hs
    cases hf : findThread s c with
    | none => simp [hf] at hs
    | some t =>
      simp only [hf] at hs
      simpa [Action.isRequest] using background_ncalls hs
  | runPosted loadOk =>
    simp only [step, runPosted] at hs
    cases hp : s.posted with
    | nil => simp [hp] at hs
    | cons job rest =>
      simp only [hp] at hs
      cases hs
      simp [Action.isRequest, (runJob_frame _ _ _).2.2.2.2.2.1]
  | ready a =>
    obtain ⟨-, rfl⟩ := ready_eq hs
    simp [Action.isRequest]
  | solveReturn c =>
    simp only [step, solveReturn] at hs
    split at hs
    · cases hs; simp [Action.isRequest]
    · cases hs

theorem run_ncalls (tr : List Action) : ∀ (s s2 : State), run s tr = some s2 →
    s2.ncalls = s.ncalls + requests tr ∧ s2.qapp = s.qapp := by
  induction tr with
  | nil =>
    intro s s2 hr
    cases hr
    exact ⟨rfl, rfl⟩
  | cons a rest ih =>
    intro s s2 hr
    simp only [run] at hr
    cases hs : step s a with
    | none => simp [hs] at hr
    | some s1 =>
      simp only [hs, Option.some_bind] at hr
      obtain ⟨h1, h2⟩ := ih s1 s2 hr
      have h3 := step_ncalls a hs
      refine ⟨?_, by rw [h2, step_qapp a hs]⟩
      rw [h1, h3]
      unfold requests
      rw [List.countP_cons]
      omega

theorem solveAsync_async (s : State) (hq : s.qapp = true) (filePath : String)
    (hintRADec : Option AstroCoord) (usePrevInfo : Bool) (solvePoint : ImagePos)
    (loadOk : Bool) :
    (solveAsync s filePath hintRADec usePrevInfo solvePoint loadOk).threads =
      s.threads ++
        [{ job :=
            { filePath := filePath
              cancellable := s.flags.length
              solverScale := if usePrevInfo then s.prevInfo else none
              hintRADec := hintRADec
              solvePoint := solvePoint
              handler := { call := s.ncalls, fulfils := false } }
           pc := Pc.check }] := by
  obtain ⟨ct, -, -, -, -, cn, cq, -, -, -, cpi, -⟩ := cancel_frame s
  have cf := (cancel_flags s).1
  unfold solveAsync
  rw [← cq] at hq
  rw [← ct, ← cn, ← cpi, ← cf]
  generalize cancel s = s0 at hq ⊢
  simp [isBlocking, hq]

theorem quiescent_solvedFirst : Quiescent solvedFirst := by
  intro a ha
  cases a with
  | solveAsync filePath hintRADec usePrevInfo solvePoint loadOk => simp [Action.internal] at ha
  | cancel => simp [Action.internal] at ha
  | setPrevInfo value => simp [Action.internal] at ha
  | background c => rfl
  | runPosted loadOk => rfl
  | ready a => rfl
  | solveReturn c => simp [step, solveReturn, solvedFirst]

/-- C1. For every `solveAsync` request the handler is invoked exactly once. Along every run
from a fresh orchestrator the requests made are numbered in order and `ncalls` counts them;
no request has had its handler invoked twice and no handler has been invoked for a request
not made; once no background thread, engine event or blocked call can move, every request
made has had its handler invoked exactly once; every internal step strictly lowers
`workLeft`, so that state is always reached, and some run of internal steps reaches it.
And the next `solveAsync` admits its request, numbered `requests tr`: the handler of that
number has not been invoked before, afterwards the request is pending or handled, once in
all; in asynchronous mode its job, carrying the handler of that number, is held by a new
background thread, in blocking mode a failed load invokes the handler within the call and
a successful one connects the job to the engine's notification. -/
theorem handler_invoked_exactly_once (qapp : Bool) (tr : List Action) (s : State)
    (h : run (PlateSolver qapp) tr = some s) :
    s.ncalls = requests tr ∧
    (∀ c, callCount s c ≤ 1 ∧ (requests tr ≤ c → callCount s c = 0)) ∧
    (Quiescent s → ∀ c, c < requests tr → callCount s c = 1) ∧
    (∀ a s1, Action.internal a = true → step s a = some s1 → workLeft s1 < workLeft s) ∧
    (∃ tr2 s1, (∀ a ∈ tr2, Action.internal a = true) ∧ run s tr2 = some s1 ∧ Quiescent s1 ∧
      ∀ c, c < requests tr → callCount s1 c = 1) ∧
    (∀ (filePath : String) (hintRADec : Option AstroCoord) (usePrevInfo : Bool)
      (solvePoint : ImagePos) (loadOk : Bool),
      (solveAsync s filePath hintRADec usePrevInfo solvePoint loadOk).ncalls =
        requests tr + 1 ∧
      callCount s (requests tr) = 0 ∧
      (pendingCalls (solveAsync s filePath hintRADec usePrevInfo solvePoint loadOk)).count
          (requests tr) +
        callCount (solveAsync s filePath hintRADec usePrevInfo solvePoint loadOk)
          (requests tr) = 1 ∧
      (qapp = true →
        (solveAsync s filePath hintRADec usePrevInfo solvePoint loadOk).threads =
          s.threads ++
            [{ job :=
                { filePath := filePath
                  cancellable := s.flags.length
                  solverScale := if usePrevInfo then s.prevInfo else none
                  hintRADec := hintRADec
                  solvePoint := solvePoint
                  handler := { call := requests tr, fulfils := false } }
               pc := Pc.check }]) ∧
      (qapp = false →
        (loadOk = false →
          callCount (solveAsync s filePath hintRADec usePrevInfo solvePoint loadOk)
            (requests tr) = 1) ∧
        (loadOk = true →
          ∃ job ∈
            (solveAsync s filePath hintRADec usePrevInfo solvePoint loadOk).engine.observers,
            job.handler.call = requests tr ∧ job.filePath = filePath))) := by
  have hreach := reachable_run tr (Reachable.init qapp) h
  have hi := inv_reachable hreach
  obtain ⟨hn, hq⟩ := run_ncalls tr (PlateSolver qapp) s h
  have hn : s.ncalls = requests tr := by simpa [PlateSolver] using hn
  have hq : s.qapp = qapp := by simpa [PlateSolver] using hq
  rw [← hn]
  refine ⟨rfl, fun c => ?_, fun hqu c hc => ?_,
    fun a s1 ha hs => (workLeft_step hi a ha hs).1, ?_, ?_⟩
  · have := hi.1 c
    constructor
    · split_ifs at this <;> omega
    · intro hc
      rw [if_neg (by omega)] at this
      omega
  · rw [callCount_quiescent hi hqu, if_pos hc]
  · obtain ⟨tr2, s1, htr, hrun, hqu, _⟩ := exists_completion (workLeft s) s hreach le_rfl
    refine ⟨tr2, s1, htr, hrun, hqu, fun c hc => ?_⟩
    rw [callCount_quiescent (inv_reachable (reachable_run tr2 hreach hrun)) hqu,
      if_pos (by omega)]
  · intro filePath hintRADec usePrevInfo solvePoint loadOk
    have hr1 : Reachable (solveAsync s filePath hintRADec usePrevInfo solvePoint loadOk) :=
      Reachable.step (Action.solveAsync filePath hintRADec usePrevInfo solvePoint loadOk)
        hreach rfl
    have hi1 := inv_reachable hr1
    have hn1 := solveAsync_ncalls s filePath hintRADec usePrevInfo solvePoint loadOk
    have h0 := hi.1 s.ncalls
    rw [if_neg (lt_irrefl _)] at h0
    have h1 := hi1.1 s.ncalls
    rw [hn1, if_pos (Nat.lt_succ_self _)] at h1
    refine ⟨hn1, by omega, h1, fun hqa => ?_, fun hqb => ?_⟩
    · exact solveAsync_async s (hq.trans hqa) filePath hintRADec usePrevInfo solvePoint loadOk
    · obtain ⟨-, -, b3, b4⟩ :=
        solveAsync_blocking s (hq.trans hqb) filePath hintRADec usePrevInfo solvePoint loadOk
      refine ⟨fun hl => callCount_eq_one hi1 (b3 hl), fun hl => ?_⟩
      obtain ⟨job, hj, e1, e2, -⟩ := b4 hl
      exact ⟨job, hj, e1, e2⟩

/-- The exactly-once statement applied to one asynchronous request taken to its completion
notification: one request was made and its handler has been invoked exactly once. -/
theorem handler_invoked_exactly_once_witness :
    run (PlateSolver true) solveFirst = some solvedFirst ∧ requests solveFirst = 1 ∧
      Quiescent solvedFirst ∧ solvedFirst.ncalls = 1 ∧ callCount solvedFirst 0 = 1 :=
  ⟨rfl, rfl, quiescent_solvedFirst,
    (handler_invoked_exactly_once true solveFirst solvedFirst rfl).1,
    (handler_invoked_exactly_once true solveFirst solvedFirst rfl).2.2.1
      quiescent_solvedFirst 0 (by decide)⟩

end SW
